import Mathlib

/-!
Verification of the `relative-path` library: a platform-neutral relative
path type with a fixed separator character.  Strings are embedded as
`List Char` (one entry per character; all slice positions taken in the
Rust source fall on character boundaries, so character indices model the
byte offsets faithfully).  The two path representations, `RelativePath`
(borrowed view) and `RelativePathBuf` (owned buffer), both wrap a plain
string, so both are embedded as the underlying character list; each
representation keeps its own copy of the operations exactly as the source
defines them.
-/

/-- The fixed path separator character (`const SEP: char = '/';`). -/
def SEP : Char := '/'

/-- Boolean predicate for a non-separator character. -/
def notSep (c : Char) : Bool := c != SEP

/-- Rust slice `&source[a..b]`: the characters of `s` from position `a` (inclusive)
to `b` (exclusive). -/
def sliceChars (s : List Char) (a b : Nat) : List Char := (s.drop a).take (b - a)

/-- Translation of `Components::next` (src/lib.rs lines 44-74), run to
exhaustion so that it returns the whole component sequence.  The iterator
state is: the remaining character stream (`rest`, with `i` the position of
its head inside `source`), the `last_slash` flag and the `offset` of the
pending component.  The first match arm is the `while let` loop; the
`[]` arm is the code after the loop (emit the trailing component when one
is pending and the cursor is not inside a separator run). -/
def componentsAux (source : List Char) : List Char → Nat → Bool → Nat → List (List Char)
  | [], _, lastSlash, offset =>
      if source.length > offset then
        if lastSlash then [] else [sliceChars source offset source.length]
      else []
  | c :: rest, i, lastSlash, offset =>
      if c = SEP then
        if lastSlash then componentsAux source rest (i + 1) lastSlash offset
        else sliceChars source offset i :: componentsAux source rest (i + 1) true i
      else
        if lastSlash then componentsAux source rest (i + 1) false i
        else componentsAux source rest (i + 1) lastSlash offset

/-- Convenience: the character list of a string literal. -/
def rp (s : String) : List Char := s.data

namespace RelativePath

/-- Source method `RelativePath::components`: the component sequence of the borrowed
path view, built with the iterator's initial state
`last_slash = true, offset = 0` (src/lib.rs lines 286-293). -/
def components (s : List Char) : List (List Char) := componentsAux s s 0 true 0

/-- Source method `RelativePath::is_absolute`: the first character is the separator
(src/lib.rs lines 308-310). -/
def is_absolute (s : List Char) : Bool := decide (s.head? = some SEP)

/-- Source method `RelativePath::to_relative_path_buf`: an owned copy of the raw
content (src/lib.rs lines 296-298). -/
def to_relative_path_buf (s : List Char) : List Char := s

end RelativePath

namespace RelativePathBuf

/-- Source method `RelativePathBuf::components`: same iterator construction as the
borrowed view, over the buffer's own storage (src/lib.rs lines 132-139). -/
def components (s : List Char) : List (List Char) := componentsAux s s 0 true 0

/-- Source method `RelativePathBuf::is_absolute` (src/lib.rs lines 160-162). -/
def is_absolute (s : List Char) : Bool := decide (s.head? = some SEP)

/-- Source method `RelativePathBuf::push` (src/lib.rs lines 108-122): an absolute
argument clears the buffer and replaces it with the argument's raw
content; otherwise one separator is appended when the buffer is non-empty
and then the argument's raw content is appended verbatim. -/
def push (self other : List Char) : List Char :=
  if RelativePath.is_absolute other then other
  else if self.length > 0 then self ++ [SEP] ++ other
  else self ++ other

/-- Source method `RelativePathBuf::join` (src/lib.rs lines 99-103): copy `self`, then
`push` the argument onto the copy. -/
def join (self other : List Char) : List Char := push self other

end RelativePathBuf

namespace RelativePath

/-- Source method `RelativePath::join` (src/lib.rs lines 273-283): if the argument is
absolute return an owned copy of it, otherwise copy `self` and push the
argument onto the copy. -/
def join (self other : List Char) : List Char :=
  if is_absolute other then to_relative_path_buf other
  else RelativePathBuf.push (to_relative_path_buf self) other

end RelativePath

/-- Path equality as the source defines it for every representation
(src/lib.rs lines 197-201, 345-349 and the `impl_cmp` pairings):
`self.components() == other.components()`, i.e. element-wise equality of
the two component sequences. -/
def rpEq (a b : List Char) : Bool :=
  decide (RelativePath.components a = RelativePath.components b)

/-- Owned-buffer equality (src/lib.rs lines 197-201), written over the
buffer's own `components` method. -/
def bufEq (a b : List Char) : Bool :=
  decide (RelativePathBuf.components a = RelativePathBuf.components b)

/-- Lexicographic comparison of two sequences given a comparison on
elements: Rust's `Iterator::cmp`.  An exhausted left iterator is less
than a non-exhausted right one. -/
def lexCmp (f : α → α → Ordering) : List α → List α → Ordering
  | [], [] => Ordering.eq
  | [], _ :: _ => Ordering.lt
  | _ :: _, [] => Ordering.gt
  | a :: as, b :: bs =>
      match f a b with
      | Ordering.eq => lexCmp f as bs
      | Ordering.lt => Ordering.lt
      | Ordering.gt => Ordering.gt

/-- Rust `char` ordering: by Unicode scalar value. -/
def charCmp (a b : Char) : Ordering :=
  if a = b then Ordering.eq else if a < b then Ordering.lt else Ordering.gt

/-- Rust `&str` ordering: lexicographic over the characters (byte-wise
UTF-8 order coincides with scalar-value order). -/
def strCmp (a b : List Char) : Ordering := lexCmp charCmp a b

/-- Source impl `Ord for RelativePath` (src/lib.rs lines 359-363):
`self.components().cmp(other.components())`, i.e. lexicographic
comparison of the component sequences with string-ordered components. -/
def rpCmp (a b : List Char) : Ordering :=
  lexCmp strCmp (RelativePath.components a) (RelativePath.components b)

/-- Source impl `Ord for RelativePathBuf` (src/lib.rs lines 211-215). -/
def bufCmp (a b : List Char) : Ordering :=
  lexCmp strCmp (RelativePathBuf.components a) (RelativePathBuf.components b)

/-- The specification's description of decomposition (spec §3, §4.1): the
non-empty maximal runs of non-separator characters, in left-to-right
order; separator runs are boundaries only and never produce components. -/
def specMaximalRuns : List Char → List (List Char)
  | [] => []
  | c :: rest =>
      if h : c = SEP then specMaximalRuns rest
      else (c :: rest).takeWhile notSep :: specMaximalRuns ((c :: rest).dropWhile notSep)
termination_by l => l.length
decreasing_by
  · simp
  · have hb : ∀ l : List Char, (List.dropWhile notSep l).length ≤ l.length := by
      intro l
      induction l with
      | nil => simp
      | cons x xs ih =>
          rw [List.dropWhile_cons]
          split
          · exact Nat.le_succ_of_le ih
          · exact Nat.le_refl _
    simp [List.dropWhile_cons, notSep, h]
    exact Nat.lt_succ_of_le (hb rest)

/-- The native-path collaborator, modelled from the spec (§6): an
extendable path is a base plus a sequence of appended segments, and
appending one segment adds it at the end.  (The real collaborator,
`std::path::PathBuf`, is outside this repository.) -/
def nativePush (base : List (List Char)) (seg : List Char) : List (List Char) :=
  base ++ [seg]

/-- Modelled from the spec: `PathBuf::extend` (the external collaborator
operation used by `to_relative_of`) appends a sequence of segments one at
a time, each as a single component. -/
def nativeExtend (base : List (List Char)) (segs : List (List Char)) : List (List Char) :=
  segs.foldl nativePush base

/-- Source method `RelativePath::to_relative_of` (src/lib.rs lines 301-305): copy the
base native path, then extend it with this path's components. -/
def to_relative_of (base : List (List Char)) (self : List Char) : List (List Char) :=
  nativeExtend base (RelativePath.components self)

/-! Helper lemmas about the decomposition. -/

theorem length_dropWhile_le (p : Char → Bool) (l : List Char) :
    (l.dropWhile p).length ≤ l.length := by
  induction l with
  | nil => simp
  | cons x xs ih =>
      rw [List.dropWhile_cons]
      split
      · exact Nat.le_succ_of_le ih
      · exact Nat.le_refl _

/-- The iterator loop invariant: with the cursor at position `i` (so the
unread stream is `s.drop i`), running the iterator to exhaustion from the
`last_slash = true` state yields the maximal runs of the unread stream,
and from the `last_slash = false` state it yields the pending component
`s[offset..i]` extended by the current run, followed by the maximal runs
of what remains. -/
theorem componentsAux_spec (s : List Char) :
    ∀ rest i offset, s.drop i = rest →
      componentsAux s rest i true offset = specMaximalRuns rest ∧
      (offset < s.length → offset ≤ i →
        componentsAux s rest i false offset =
          (sliceChars s offset i ++ rest.takeWhile notSep) ::
            specMaximalRuns (rest.dropWhile notSep)) := by
  intro rest
  induction rest with
  | nil =>
      intro i offset hdrop
      have hlen : s.length ≤ i := List.drop_eq_nil_iff.mp hdrop
      constructor
      · simp [componentsAux, specMaximalRuns, ite_self]
      · intro h1 _h2
        have hsl : sliceChars s offset s.length = sliceChars s offset i := by
          unfold sliceChars
          have l1 : (s.drop offset).take (s.length - offset) = s.drop offset :=
            List.take_of_length_le (by rw [List.length_drop])
          have l2 : (s.drop offset).take (i - offset) = s.drop offset :=
            List.take_of_length_le (by rw [List.length_drop]; omega)
          rw [l1, l2]
        simp [componentsAux, h1, specMaximalRuns, hsl]
  | cons c rest ih =>
      intro i offset hdrop
      have hne : s.drop i ≠ [] := by rw [hdrop]; simp
      have hi : i < s.length := by
        by_contra hle
        push_neg at hle
        exact hne (List.drop_eq_nil_iff.mpr hle)
      have hdrop1 : s.drop (i + 1) = rest := by
        have h := List.drop_drop 1 i s
        rw [hdrop] at h
        simpa using h.symm
      have hc1 : sliceChars s i (i + 1) = [c] := by
        unfold sliceChars
        rw [hdrop]
        have e : i + 1 - i = 1 := by omega
        rw [e]
        rfl
      have hF1 : offset ≤ i → sliceChars s offset (i + 1) = sliceChars s offset i ++ [c] := by
        intro hoi
        unfold sliceChars
        have e1 : i + 1 - offset = (i - offset) + 1 := by omega
        have e3 : (s.drop offset)[i - offset]? = some c := by
          rw [List.getElem?_drop]
          have e4 : offset + (i - offset) = i := by omega
          rw [e4, ← List.head?_drop, hdrop]
          rfl
        rw [e1, List.take_succ, e3]
        rfl
      by_cases hc : c = SEP
      · subst hc
        constructor
        · have e := (ih (i + 1) offset hdrop1).1
          simp [componentsAux, e, specMaximalRuns]
        · intro h1 h2
          have e := (ih (i + 1) i hdrop1).1
          simp [componentsAux, e, specMaximalRuns, List.takeWhile_cons,
            List.dropWhile_cons, notSep]
      · constructor
        · have e := (ih (i + 1) i hdrop1).2 hi (Nat.le_succ i)
          simp [componentsAux, hc, e, hc1, specMaximalRuns, List.takeWhile_cons,
            List.dropWhile_cons, notSep]
        · intro h1 h2
          have e := (ih (i + 1) offset hdrop1).2 h1 (Nat.le_succ_of_le h2)
          simp [componentsAux, hc, e, hF1 h2, List.takeWhile_cons,
            List.dropWhile_cons, notSep]

/-- The component iterator realises the spec's decomposition rule. -/
theorem components_eq_specRuns (s : List Char) :
    RelativePath.components s = specMaximalRuns s := by
  have h := (componentsAux_spec s s 0 0 (by simp)).1
  simpa [RelativePath.components] using h

/-- Reduction of the spec decomposition at a leading separator. -/
theorem specRuns_sep_cons (t : List Char) :
    specMaximalRuns (SEP :: t) = specMaximalRuns t := by
  simp [specMaximalRuns]

/-- Reduction of the spec decomposition at a leading non-separator. -/
theorem specRuns_cons_of_ne {c : Char} (hc : ¬ c = SEP) (t : List Char) :
    specMaximalRuns (c :: t) =
      (c :: t.takeWhile notSep) :: specMaximalRuns (t.dropWhile notSep) := by
  simp [specMaximalRuns, hc, List.takeWhile_cons, List.dropWhile_cons, notSep]

theorem takeWhile_append_sep (l : List Char) :
    (l ++ [SEP]).takeWhile notSep = l.takeWhile notSep := by
  induction l with
  | nil => simp [List.takeWhile_cons, notSep]
  | cons x xs ih =>
      by_cases hx : notSep x = true
      · simp [List.takeWhile_cons, hx, ih]
      · simp [List.takeWhile_cons, hx]

theorem dropWhile_append_sep (l : List Char) :
    (l ++ [SEP]).dropWhile notSep = l.dropWhile notSep ++ [SEP] := by
  induction l with
  | nil => simp [List.dropWhile_cons, notSep]
  | cons x xs ih =>
      by_cases hx : notSep x = true
      · simp [List.dropWhile_cons, hx, ih]
      · simp [List.dropWhile_cons, hx]

theorem specRuns_append_sep_aux :
    ∀ (n : Nat) (l : List Char), l.length ≤ n →
      specMaximalRuns (l ++ [SEP]) = specMaximalRuns l := by
  intro n
  induction n with
  | zero =>
      intro l hl
      have hnil : l = [] := by
        cases l with
        | nil => rfl
        | cons a t => simp at hl
      subst hnil
      rw [List.nil_append, specRuns_sep_cons]
  | succ n ihn =>
      intro l hl
      cases l with
      | nil => rw [List.nil_append, specRuns_sep_cons]
      | cons c rest =>
          by_cases hc : c = SEP
          · subst hc
            rw [List.cons_append, specRuns_sep_cons, specRuns_sep_cons]
            exact ihn rest (by simpa using hl)
          · rw [List.cons_append, specRuns_cons_of_ne hc, specRuns_cons_of_ne hc,
              takeWhile_append_sep, dropWhile_append_sep]
            have hlen : (rest.dropWhile notSep).length ≤ n :=
              Nat.le_trans (length_dropWhile_le notSep rest) (by simpa using hl)
            rw [ihn _ hlen]

/-- Appending one trailing separator does not change the decomposition. -/
theorem specRuns_append_sep (l : List Char) :
    specMaximalRuns (l ++ [SEP]) = specMaximalRuns l :=
  specRuns_append_sep_aux l.length l (Nat.le_refl _)

theorem mem_takeWhile_pred {p : Char → Bool} :
    ∀ (l : List Char) (a : Char), a ∈ l.takeWhile p → p a = true := by
  intro l
  induction l with
  | nil =>
      intro a ha
      simp at ha
  | cons x xs ih =>
      intro a ha
      rw [List.takeWhile_cons] at ha
      by_cases hx : p x = true
      · rw [if_pos hx] at ha
        rcases List.mem_cons.mp ha with h | h
        · rw [h]; exact hx
        · exact ih a h
      · rw [if_neg hx] at ha
        simp at ha

theorem specRuns_mem_aux :
    ∀ (n : Nat) (l : List Char), l.length ≤ n →
      ∀ c, c ∈ specMaximalRuns l →
        c ≠ [] ∧ (∀ x, x ∈ c → x ≠ SEP) ∧ ∃ u v, l = u ++ (c ++ v) := by
  intro n
  induction n with
  | zero =>
      intro l hl c hc
      have hnil : l = [] := by
        cases l with
        | nil => rfl
        | cons a t => simp at hl
      subst hnil
      simp [specMaximalRuns] at hc
  | succ n ihn =>
      intro l hl c hc
      cases l with
      | nil => simp [specMaximalRuns] at hc
      | cons c0 rest =>
          by_cases hc0 : c0 = SEP
          · subst hc0
            rw [specRuns_sep_cons] at hc
            obtain ⟨h1, h2, u, v, h3⟩ := ihn rest (by simpa using hl) c hc
            exact ⟨h1, h2, SEP :: u, v, by rw [List.cons_append, h3]⟩
          · rw [specRuns_cons_of_ne hc0] at hc
            rcases List.mem_cons.mp hc with h | h
            · subst h
              refine ⟨by simp, ?_, [], rest.dropWhile notSep, ?_⟩
              · intro x hx
                rcases List.mem_cons.mp hx with h | h
                · rw [h]; exact hc0
                · have := mem_takeWhile_pred rest x h
                  simpa [notSep] using this
              · rw [List.nil_append, List.cons_append]
                rw [List.takeWhile_append_dropWhile]
            · have hlen : (rest.dropWhile notSep).length ≤ n :=
                Nat.le_trans (length_dropWhile_le notSep rest) (by simpa using hl)
              obtain ⟨h1, h2, u, v, h3⟩ := ihn _ hlen c h
              refine ⟨h1, h2, (c0 :: rest.takeWhile notSep) ++ u, v, ?_⟩
              conv_lhs =>
                rw [show rest = rest.takeWhile notSep ++ rest.dropWhile notSep from
                  (List.takeWhile_append_dropWhile notSep rest).symm]
              rw [h3]
              simp

/-- Every produced component is a non-empty, separator-free contiguous
substring of the source. -/
theorem specRuns_mem (l c : List Char) (h : c ∈ specMaximalRuns l) :
    c ≠ [] ∧ (∀ x, x ∈ c → x ≠ SEP) ∧ ∃ u v, l = u ++ (c ++ v) :=
  specRuns_mem_aux l.length l (Nat.le_refl _) c h

/-- A string of separators only decomposes to no components. -/
theorem specRuns_all_sep : ∀ l : List Char, (∀ x, x ∈ l → x = SEP) →
    specMaximalRuns l = [] := by
  intro l
  induction l with
  | nil =>
      intro _
      simp [specMaximalRuns]
  | cons x xs ih =>
      intro h
      have hx : x = SEP := h x (List.mem_cons_self x xs)
      subst hx
      rw [specRuns_sep_cons]
      exact ih (fun y hy => h y (List.mem_cons_of_mem _ hy))

theorem lexCmp_eq_iff {α : Type} {f : α → α → Ordering}
    (hf : ∀ a b, f a b = Ordering.eq ↔ a = b) :
    ∀ x y, lexCmp f x y = Ordering.eq ↔ x = y := by
  intro x
  induction x with
  | nil =>
      intro y
      cases y <;> simp [lexCmp]
  | cons a as ih =>
      intro y
      cases y with
      | nil => simp [lexCmp]
      | cons b bs =>
          have hstep : lexCmp f (a :: as) (b :: bs) =
              match f a b with
              | Ordering.eq => lexCmp f as bs
              | Ordering.lt => Ordering.lt
              | Ordering.gt => Ordering.gt := rfl
          cases hab : f a b with
          | eq =>
              have hab' : a = b := (hf a b).mp hab
              subst hab'
              rw [hstep, hab]
              simp [ih bs]
          | lt =>
              have hl : lexCmp f (a :: as) (b :: bs) = Ordering.lt := by
                rw [hstep, hab]
              rw [hl]
              constructor
              · intro h
                exact absurd h (by decide)
              · intro h
                cases h
                have he : f a a = Ordering.eq := (hf a a).mpr rfl
                exact absurd (he.symm.trans hab) (by decide)
          | gt =>
              have hg : lexCmp f (a :: as) (b :: bs) = Ordering.gt := by
                rw [hstep, hab]
              rw [hg]
              constructor
              · intro h
                exact absurd h (by decide)
              · intro h
                cases h
                have he : f a a = Ordering.eq := (hf a a).mpr rfl
                exact absurd (he.symm.trans hab) (by decide)

theorem charCmp_eq_iff (a b : Char) : charCmp a b = Ordering.eq ↔ a = b := by
  unfold charCmp
  by_cases h : a = b
  · simp [h]
  · rw [if_neg h]
    by_cases h2 : a < b
    · rw [if_pos h2]
      simp [h]
    · rw [if_neg h2]
      simp [h]

theorem strCmp_eq_iff (x y : List Char) : strCmp x y = Ordering.eq ↔ x = y :=
  lexCmp_eq_iff charCmp_eq_iff x y

theorem compCmp_eq_iff (x y : List (List Char)) :
    lexCmp strCmp x y = Ordering.eq ↔ x = y :=
  lexCmp_eq_iff strCmp_eq_iff x y

/-- The buffer's component method computes the same sequence as the
borrowed view's (the source duplicates the same iterator construction). -/
theorem buf_components_eq (s : List Char) :
    RelativePathBuf.components s = RelativePath.components s := rfl

/-- C1: for every input string, the component iterator yields exactly the
non-empty maximal runs of non-separator characters, in left-to-right
order; consecutive separators collapse to one boundary, leading and
trailing separators produce no components, and an empty component is
never yielded; in particular "foo/bar", "foo///bar", "foo//bar///" all
yield ["foo", "bar"] and "/hello///world//" yields ["hello", "world"]. -/
theorem C1_components_are_maximal_runs :
    (∀ s : List Char, RelativePath.components s = specMaximalRuns s) ∧
    (∀ s c : List Char, c ∈ RelativePath.components s → c ≠ []) ∧
    RelativePath.components (rp "foo/bar") = [rp "foo", rp "bar"] ∧
    RelativePath.components (rp "foo///bar") = [rp "foo", rp "bar"] ∧
    RelativePath.components (rp "foo//bar///") = [rp "foo", rp "bar"] ∧
    RelativePath.components (rp "/hello///world//") = [rp "hello", rp "world"] := by
  refine ⟨components_eq_specRuns, ?_, by decide, by decide, by decide, by decide⟩
  intro s c hc
  rw [components_eq_specRuns] at hc
  exact (specRuns_mem s c hc).1

/-- C1 witness: the non-emptiness conjunct applied to a concrete
component of a concrete path. -/
theorem C1_witness : rp "foo" ≠ [] :=
  C1_components_are_maximal_runs.2.1 (rp "foo/bar") (rp "foo") (by decide)

/-- C2: path equality, in every representation pairing, holds iff the two
component sequences are element-wise equal; raw strings are not compared,
so "foo//bar" equals "foo/bar" and "/foo/bar" equals "foo/bar" even
though the raw strings differ, and an owned copy of "foo" equals the
borrowed view "foo".  The borrowed-view equality, the owned-buffer
equality, and the cross-representation delegations (buffer vs view, the
copy-on-write wrapper and plain strings, which all forward to the
borrowed-view comparison on the same content) compute the same answer. -/
theorem C2_equality_is_component_equality :
    (∀ a b : List Char,
      rpEq a b = true ↔ RelativePath.components a = RelativePath.components b) ∧
    (∀ a b : List Char,
      bufEq a b = true ↔ RelativePath.components a = RelativePath.components b) ∧
    (∀ a b : List Char, bufEq a b = rpEq a b) ∧
    rpEq (rp "foo//bar") (rp "foo/bar") = true ∧
    rpEq (rp "/foo/bar") (rp "foo/bar") = true ∧
    rp "foo//bar" ≠ rp "foo/bar" ∧
    rpEq (RelativePath.to_relative_path_buf (rp "foo")) (rp "foo") = true ∧
    bufEq (RelativePath.to_relative_path_buf (rp "foo")) (rp "foo") = true := by
  refine ⟨?_, ?_, ?_, by decide, by decide, by decide, by decide, by decide⟩
  · intro a b
    simp [rpEq]
  · intro a b
    simp [bufEq, buf_components_eq]
  · intro a b
    rfl

/-- C3: joining onto an absolute argument discards the base entirely: the
result is the argument's raw content, for both `join` and `push`; in
particular joining "hello/world" (or the empty path) with
"///foo/bar/baz" yields components ["foo", "bar", "baz"]. -/
theorem C3_absolute_argument_resets :
    (∀ a b : List Char, RelativePath.is_absolute b = true →
      RelativePath.join a b = b ∧ RelativePathBuf.push a b = b) ∧
    RelativePath.components (RelativePath.join (rp "hello/world") (rp "///foo/bar/baz")) =
      [rp "foo", rp "bar", rp "baz"] ∧
    RelativePath.components (RelativePath.join (rp "") (rp "///foo/bar/baz")) =
      [rp "foo", rp "bar", rp "baz"] := by
  refine ⟨?_, by decide, by decide⟩
  intro a b hb
  constructor
  · simp [RelativePath.join, RelativePath.to_relative_path_buf, hb]
  · simp [RelativePathBuf.push, hb]

/-- C3 witness: the general conjunct applied at "hello/world" and the
absolute path "///foo/bar/baz". -/
theorem C3_witness :
    RelativePath.join (rp "hello/world") (rp "///foo/bar/baz") = rp "///foo/bar/baz" ∧
    RelativePathBuf.push (rp "hello/world") (rp "///foo/bar/baz") = rp "///foo/bar/baz" :=
  C3_absolute_argument_resets.1 (rp "hello/world") (rp "///foo/bar/baz") (by decide)

/-- C4: pushing a non-absolute path is a purely textual append: the new
raw storage is the old content, one separator iff the old content was
non-empty, then the argument's raw content verbatim.  Redundant
separators are kept in storage ("a/" pushed with "b" stores "a//b") and
only collapse during component derivation. -/
theorem C4_push_is_textual_append :
    (∀ a b : List Char, RelativePath.is_absolute b = false →
      RelativePathBuf.push a b = a ++ (if a.length > 0 then [SEP] else []) ++ b) ∧
    RelativePathBuf.push (rp "a/") (rp "b") = rp "a//b" ∧
    RelativePathBuf.components (RelativePathBuf.push (rp "a/") (rp "b")) =
      [rp "a", rp "b"] := by
  refine ⟨?_, by decide, by decide⟩
  intro a b hb
  simp only [RelativePathBuf.push, hb, Bool.false_eq_true, if_false]
  split
  · simp
  · simp

/-- C4 witness: the general conjunct applied at "a/" and "b". -/
theorem C4_witness :
    RelativePathBuf.push (rp "a/") (rp "b") =
      rp "a/" ++ (if (rp "a/").length > 0 then [SEP] else []) ++ rp "b" :=
  C4_push_is_textual_append.1 (rp "a/") (rp "b") (by decide)

/-- C5: the method `join` returns the same buffer as copying the receiver and then
applying `push`, for both the borrowed-view join and the owned-buffer
join, including when the argument is absolute (and, being a pure
function of its arguments in this embedding, it never mutates the
receiver). -/
theorem C5_join_is_copy_then_push :
    (∀ a b : List Char,
      RelativePath.join a b = RelativePathBuf.push (RelativePath.to_relative_path_buf a) b) ∧
    (∀ a b : List Char, RelativePathBuf.join a b = RelativePathBuf.push a b) := by
  constructor
  · intro a b
    by_cases hb : RelativePath.is_absolute b = true
    · simp [RelativePath.join, RelativePathBuf.push, RelativePath.to_relative_path_buf, hb]
    · rw [Bool.not_eq_true] at hb
      simp [RelativePath.join, RelativePathBuf.push, RelativePath.to_relative_path_buf, hb]
  · intro a b
    rfl

/-- C6: the ordering on paths is a total order consistent with equality:
for every pair exactly one of less-than, component-equal, greater-than
holds, the order is exactly lexicographic comparison of the component
sequences (string-ordered components), the buffer ordering agrees, and it
is not raw-string comparison ("foo//bar" compares equal to "foo/bar"
although the raw strings compare unequal). -/
theorem C6_ordering_total_consistent :
    (∀ a b : List Char,
      (rpCmp a b = Ordering.lt ∧ rpEq a b = false ∧ rpCmp a b ≠ Ordering.gt) ∨
      (rpCmp a b ≠ Ordering.lt ∧ rpEq a b = true ∧ rpCmp a b ≠ Ordering.gt) ∨
      (rpCmp a b ≠ Ordering.lt ∧ rpEq a b = false ∧ rpCmp a b = Ordering.gt)) ∧
    (∀ a b : List Char,
      rpCmp a b = lexCmp strCmp (RelativePath.components a) (RelativePath.components b)) ∧
    (∀ a b : List Char, bufCmp a b = rpCmp a b) ∧
    rpCmp (rp "foo//bar") (rp "foo/bar") = Ordering.eq ∧
    strCmp (rp "foo//bar") (rp "foo/bar") ≠ Ordering.eq := by
  refine ⟨?_, fun a b => rfl, fun a b => rfl, by decide, by decide⟩
  intro a b
  have hbr : rpCmp a b = Ordering.eq ↔ rpEq a b = true := by
    rw [rpCmp, compCmp_eq_iff]
    simp [rpEq]
  cases hc : rpCmp a b with
  | lt =>
      left
      refine ⟨rfl, ?_, by decide⟩
      have hne : ¬ rpEq a b = true := fun h => by
        have h2 := hbr.mpr h
        rw [hc] at h2
        exact absurd h2 (by decide)
      simpa using hne
  | eq =>
      right; left
      exact ⟨by decide, hbr.mp hc, by decide⟩
  | gt =>
      right; right
      refine ⟨by decide, ?_, rfl⟩
      have hne : ¬ rpEq a b = true := fun h => by
        have h2 := hbr.mpr h
        rw [hc] at h2
        exact absurd h2 (by decide)
      simpa using hne

/-- C7: pushing the empty path onto any path leaves the derived component
sequence unchanged (the raw storage may gain a trailing separator, which
a later decomposition collapses). -/
theorem C7_push_empty_preserves_components :
    ∀ P : List Char,
      RelativePathBuf.components (RelativePathBuf.push P (rp "")) =
        RelativePathBuf.components P := by
  intro P
  have hemp : rp "" = ([] : List Char) := by decide
  have h0 : RelativePath.is_absolute ([] : List Char) = false := by decide
  rw [buf_components_eq, buf_components_eq, components_eq_specRuns, components_eq_specRuns]
  simp only [RelativePathBuf.push, hemp, h0, Bool.false_eq_true, if_false, List.append_nil]
  split
  · exact specRuns_append_sep P
  · rfl

/-- C8: converting a path to a native path relative to a base equals the
base extended with exactly the normalized component sequence, appended in
iteration order; converting "/hello///world//" relative to any base is
the base extended with "hello" then "world", one segment at a time. -/
theorem C8_to_relative_of_appends_components :
    (∀ (base : List (List Char)) (p : List Char),
      to_relative_of base p = base ++ RelativePath.components p) ∧
    (∀ base : List (List Char),
      to_relative_of base (rp "/hello///world//") =
        nativePush (nativePush base (rp "hello")) (rp "world")) := by
  have hfold : ∀ (segs : List (List Char)) (base : List (List Char)),
      nativeExtend base segs = base ++ segs := by
    intro segs
    induction segs with
    | nil =>
        intro base
        simp [nativeExtend]
    | cons x xs ih =>
        intro base
        rw [nativeExtend, List.foldl_cons]
        rw [show List.foldl nativePush (nativePush base x) xs =
          nativeExtend (nativePush base x) xs from rfl]
        rw [ih (nativePush base x)]
        simp [nativePush]
  constructor
  · intro base p
    rw [to_relative_of]
    exact hfold _ _
  · intro base
    rw [to_relative_of]
    have hcw : RelativePath.components (rp "/hello///world//") =
        [rp "hello", rp "world"] := by decide
    rw [hcw]
    rfl

/-- C9: every string yielded by the component iterator is a contiguous
substring of the source containing no separator character. -/
theorem C9_components_separator_free :
    ∀ s c : List Char, c ∈ RelativePath.components s →
      (∀ x, x ∈ c → x ≠ SEP) ∧ ∃ u v, s = u ++ (c ++ v) := by
  intro s c hc
  rw [components_eq_specRuns] at hc
  obtain ⟨_, h2, h3⟩ := specRuns_mem s c hc
  exact ⟨h2, h3⟩

/-- C9 witness: applied to the component "foo" of "foo/bar". -/
theorem C9_witness :
    (∀ x, x ∈ rp "foo" → x ≠ SEP) ∧ ∃ u v, rp "foo/bar" = u ++ (rp "foo" ++ v) :=
  C9_components_separator_free (rp "foo/bar") (rp "foo") (by decide)

/-- C10: every non-empty string of separators only decomposes to the
empty component sequence, hence compares equal to the empty path "",
although `is_absolute` is true on it and false on "". -/
theorem C10_separator_only_paths :
    (∀ s : List Char, s ≠ [] → (∀ x, x ∈ s → x = SEP) →
      RelativePath.components s = [] ∧ rpEq s (rp "") = true ∧
      RelativePath.is_absolute s = true) ∧
    RelativePath.is_absolute (rp "") = false ∧
    RelativePath.components (rp "/") = [] ∧
    RelativePath.components (rp "///") = [] := by
  refine ⟨?_, by decide, by decide, by decide⟩
  intro s hne hall
  have hcomp : RelativePath.components s = [] := by
    rw [components_eq_specRuns]
    exact specRuns_all_sep s hall
  have hemp : RelativePath.components (rp "") = [] := by decide
  refine ⟨hcomp, ?_, ?_⟩
  · simp [rpEq, hcomp, hemp]
  · cases s with
    | nil => exact absurd rfl hne
    | cons x xs =>
        have hx : x = SEP := hall x (List.mem_cons_self x xs)
        subst hx
        simp [RelativePath.is_absolute]

/-- C10 witness: applied to the all-separator path "///". -/
theorem C10_witness :
    RelativePath.components (rp "///") = [] ∧ rpEq (rp "///") (rp "") = true ∧
      RelativePath.is_absolute (rp "///") = true :=
  C10_separator_only_paths.1 (rp "///") (by decide) (by decide)
